import Mathlib

/-!
Verification development for the Hukum Chess move-search engine
(`server/stockfish.ts`): a depth-limited minimax search with alpha-beta
pruning over a material-plus-positional evaluation, plus a puzzle solver
and thin exported wrappers.

The chess rules themselves (legal-move generation, apply/undo, terminal
detection, board contents, history) are provided by the external
`chess.js` library; following the design's "Rules Adapter" capability
interface, they are modelled as an abstract record of operations
(`Rules`) over an abstract position type.  The engine code itself —
`findBestMove`, `minimax`, `evaluateBoard`, `getStockfishMove`,
`evaluatePosition`, `solvePuzzle` — is translated directly from the
source.  JavaScript numbers are modelled as rationals (`ℚ`), with the
sentinel `±Infinity` values modelled by `WithBot (WithTop ℚ)`.  The
`Math.random()` source is modelled by an explicit parameter `r` (the
value returned by the mocked random source), as the spec's tests fix it.
The in-place mutation of the single `Chess` object by `chess.move` /
`chess.undo` is modelled by explicit state passing: each search function
returns, besides its result, the final state of the position object.
-/

namespace HukumChess

/-- Piece symbols as used by chess.js (`PieceSymbol`). -/
inductive PieceSymbol : Type
  | p | n | b | r | q | k
deriving DecidableEq

/-- Side colors as used by chess.js (`Color`): white and black. -/
inductive Color : Type
  | w | b
deriving DecidableEq

/-- Occupied-square content as returned by `chess.board()`: a piece type
and a color. -/
structure Piece : Type where
  ptype : PieceSymbol
  color : Color
deriving DecidableEq

/-- Verbose move as returned by `chess.moves({ verbose: true })`,
restricted to the fields this engine reads: from-square, to-square,
optional promotion piece letter, optional captured piece kind, and the
mover color.  Squares are kept as opaque strings (chess.js produces
two-character algebraic names such as "e2"). -/
structure VMove : Type where
  src : String
  dst : String
  promotion : Option String
  captured : Option PieceSymbol
  color : Color
deriving DecidableEq

/-- Coordinate (UCI-style) encoding of a move, as built by the source:
`move.from + move.to + (move.promotion || '')`. -/
def uciOf (m : VMove) : String :=
  m.src ++ m.dst ++ m.promotion.getD ""

/-- The Rules Adapter capability interface: the operations of the
external chess.js library that the engine calls on its `Chess` object.
`mv` and `undo` model the in-place `chess.move` / `chess.undo` mutations
as state transformers. -/
structure Rules (P : Type) : Type where
  turn : P → Color
  moves : P → List VMove
  mv : P → VMove → P
  undo : P → P
  isGameOver : P → Bool
  isCheckmate : P → Bool
  isDraw : P → Bool
  board : P → Fin 8 → Fin 8 → Option Piece
  history : P → List VMove

variable {P : Type}

/-- Piece values for evaluation (source constant `PIECE_VALUES`):
pawn 1, knight 3, bishop 3, rook 5, queen 9, king 0. -/
def PIECE_VALUES : PieceSymbol → ℚ
  | .p => 1
  | .n => 3
  | .b => 3
  | .r => 5
  | .q => 9
  | .k => 0

/-- Square values for piece positioning (source constant
`SQUARE_VALUES`): an 8×8 table rewarding center control. -/
def SQUARE_VALUES : List (List ℚ) :=
  [[0, 0, 0, 0, 0, 0, 0, 0],
   [0, 1/10, 2/10, 2/10, 2/10, 2/10, 1/10, 0],
   [0, 2/10, 3/10, 4/10, 4/10, 3/10, 2/10, 0],
   [0, 2/10, 4/10, 5/10, 5/10, 4/10, 2/10, 0],
   [0, 2/10, 4/10, 5/10, 5/10, 4/10, 2/10, 0],
   [0, 2/10, 3/10, 4/10, 4/10, 3/10, 2/10, 0],
   [0, 1/10, 2/10, 2/10, 2/10, 2/10, 1/10, 0],
   [0, 0, 0, 0, 0, 0, 0, 0]]

/-- Additional bonus factor for captures (source constant
`CAPTURE_BONUS = 0.5`). -/
def CAPTURE_BONUS : ℚ := 1/2

/-- Table lookup `SQUARE_VALUES[i][j]`. -/
def squareValueAt (i j : Nat) : ℚ :=
  (SQUARE_VALUES.getD i []).getD j 0

/-- Contribution of the square at row `i`, column `j` of `chess.board()`
to the material-plus-positional sum of `evaluateBoard`: material value
`PIECE_VALUES[piece.type] * (piece.color === 'w' ? 1 : -1)` plus
positional value
`SQUARE_VALUES[piece.color === 'w' ? i : 7 - i][j] * (piece.color === 'w' ? 0.2 : -0.2)`;
an empty square contributes nothing. -/
def squareScore (R : Rules P) (pos : P) (i j : Fin 8) : ℚ :=
  match R.board pos i j with
  | none => 0
  | some piece =>
      let value := PIECE_VALUES piece.ptype * (if piece.color = Color.w then 1 else -1)
      let positionValue :=
        squareValueAt (if piece.color = Color.w then i.val else 7 - i.val) j.val *
          (if piece.color = Color.w then (2/10 : ℚ) else -(2/10))
      value + positionValue

/-- Double loop of `evaluateBoard` over the 8×8 board, accumulating
`score += value + positionValue` over every occupied square. -/
def materialPositional (R : Rules P) (pos : P) : ℚ :=
  (List.finRange 8).foldl
    (fun acc i => (List.finRange 8).foldl (fun acc2 j => acc2 + squareScore R pos i j) acc)
    0

/-- Capture-bonus term of `evaluateBoard`: if the game history is
nonempty and its last move captured a piece, the source adds
`captureValue * CAPTURE_BONUS * (lastMove.color === 'w' ? 1 : -1)` where
`captureValue = PIECE_VALUES[lastMove.captured] * (lastMove.color === 'w' ? 1 : -1)`;
otherwise nothing is added. -/
def captureBonusTerm (R : Rules P) (pos : P) : ℚ :=
  match (R.history pos).getLast? with
  | none => 0
  | some lastMove =>
      match lastMove.captured with
      | none => 0
      | some captured =>
          let captureValue :=
            PIECE_VALUES captured * (if lastMove.color = Color.w then 1 else -1)
          captureValue * CAPTURE_BONUS * (if lastMove.color = Color.w then 1 else -1)

/-- Static evaluation of the board (source function `evaluateBoard`),
with the value produced by `Math.random()` passed explicitly as `r`:
checkmate is −1000 with White to move and +1000 with Black to move, a
draw is 0, and otherwise the material-plus-positional sum plus the
random perturbation `r * 0.2 - 0.1` plus the last-move capture bonus. -/
def evaluateBoard (R : Rules P) (r : ℚ) (pos : P) : ℚ :=
  if R.isCheckmate pos then (if R.turn pos = Color.w then -1000 else 1000)
  else if R.isDraw pos then 0
  else materialPositional R pos + (r * (2/10) - 1/10) + captureBonusTerm R pos

/-- Extended score type: JavaScript numbers together with the
`-Infinity` (`⊥`) and `Infinity` (`⊤`) sentinels used by the search. -/
abbrev EScore : Type := WithBot (WithTop ℚ)

/-- Injection of a finite score into the extended score type. -/
def qs (x : ℚ) : EScore := ((x : WithTop ℚ) : WithBot (WithTop ℚ))

/-- Result of the stable sort in `findBestMove`
(`moves.sort((a, b) => (b.captured ? 1 : 0) - (a.captured ? 1 : 0))`):
JavaScript's `Array.prototype.sort` is stable, and sorting descending by
the 0/1 capture key places all capturing moves first, each block keeping
its original relative order. -/
def sortCapturesFirst (ms : List VMove) : List VMove :=
  ms.filter (fun m => m.captured.isSome) ++ ms.filter (fun m => !m.captured.isSome)

/-- Loop body of the maximizing branch of `minimax`: iterate over the
moves, apply each (`chess.move`), score the child with a recursive call
taking the current `alpha` (passed in through `child`), undo
(`chess.undo`), track `maxScore = Math.max(maxScore, score)` and
`alpha = Math.max(alpha, score)`, and `break` when `beta <= alpha`.
Returns the score together with the final state of the position
object. -/
def maxLoop (R : Rules P) (child : P → EScore → EScore × P) (beta : EScore) :
    List VMove → P → EScore → EScore → EScore × P
  | [], pos, maxScore, _ => (maxScore, pos)
  | m :: ms, pos, maxScore, alpha =>
      let pos1 := R.mv pos m
      let res := child pos1 alpha
      let pos2 := R.undo res.2
      let maxScore2 := max maxScore res.1
      let alpha2 := max alpha res.1
      if beta ≤ alpha2 then (maxScore2, pos2)
      else maxLoop R child beta ms pos2 maxScore2 alpha2

/-- Loop body of the minimizing branch of `minimax`, symmetric to
`maxLoop`: tracks `minScore` and updates `beta`, breaking when
`beta <= alpha`. -/
def minLoop (R : Rules P) (child : P → EScore → EScore × P) (alpha : EScore) :
    List VMove → P → EScore → EScore → EScore × P
  | [], pos, minScore, _ => (minScore, pos)
  | m :: ms, pos, minScore, beta =>
      let pos1 := R.mv pos m
      let res := child pos1 beta
      let pos2 := R.undo res.2
      let minScore2 := min minScore res.1
      let beta2 := min beta res.1
      if beta2 ≤ alpha then (minScore2, pos2)
      else minLoop R child alpha ms pos2 minScore2 beta2

/-- Minimax with alpha-beta pruning (source function `minimax`), with
the mutated `Chess` object threaded through explicitly.  Base case:
depth 0 or game over returns the static evaluation.  Maximizing branch
starts from `maxScore = -Infinity`; minimizing from
`minScore = Infinity`.  Depth is a natural number: the source decrements
it once per ply and tests `depth === 0`, so nonnegative depths behave
identically. -/
def minimax (R : Rules P) (r : ℚ) : Nat → P → EScore → EScore → Bool → EScore × P
  | 0, pos, _, _, _ => (qs (evaluateBoard R r pos), pos)
  | d+1, pos, alpha, beta, isMaximizing =>
      if R.isGameOver pos then (qs (evaluateBoard R r pos), pos)
      else if isMaximizing then
        maxLoop R (fun q a => minimax R r d q a beta false) beta (R.moves pos) pos ⊥ alpha
      else
        minLoop R (fun q b => minimax R r d q alpha b true) alpha (R.moves pos) pos ⊤ beta

/-- Loop of `findBestMove` over the capture-first sorted moves: each
candidate is applied, scored via
`minimax(chess, depth - 1, -Infinity, Infinity, playerColor === 'w' ? false : true)`,
undone, and adopted as the new best exactly when its score strictly
improves on the running best (`>` for White, `<` for Black). -/
def findBestLoop (R : Rules P) (r : ℚ) (depth : Nat) (playerColor : Color) :
    List VMove → P → String → EScore → String × EScore × P
  | [], pos, bestMove, bestScore => (bestMove, bestScore, pos)
  | m :: ms, pos, bestMove, bestScore =>
      let pos1 := R.mv pos m
      let res := minimax R r (depth - 1) pos1 ⊥ ⊤
        (if playerColor = Color.w then false else true)
      let pos2 := R.undo res.2
      if (playerColor = Color.w ∧ bestScore < res.1) ∨
         (playerColor = Color.b ∧ res.1 < bestScore) then
        findBestLoop R r depth playerColor ms pos2 (uciOf m) res.1
      else
        findBestLoop R r depth playerColor ms pos2 bestMove bestScore

/-- Best-move search (source function `findBestMove`): enumerate the
legal moves, sort captures first, run the alpha-beta loop starting from
`bestMove = ''` and `bestScore = ∓Infinity`, and if no move was adopted
while at least one legal move exists, fall back to the first enumerated
move.  Returns the chosen coordinate string together with the final
state of the position object. -/
def findBestMove (R : Rules P) (r : ℚ) (pos : P) (depth : Nat) (playerColor : Color) :
    String × P :=
  let ms := sortCapturesFirst (R.moves pos)
  let initScore : EScore := if playerColor = Color.w then ⊥ else ⊤
  let res := findBestLoop R r depth playerColor ms pos "" initScore
  let bestMove :=
    if res.1 = "" then
      match ms with
      | [] => res.1
      | first :: _ => uciOf first
    else res.1
  (bestMove, res.2.2)

/-- Exported move generator (source function `getStockfishMove`): reads
the side to move and returns the best move's coordinate encoding.  The
`timeLimit` parameter is accepted but never read. -/
def getStockfishMove (R : Rules P) (r : ℚ) (pos : P) (depth : Nat) (timeLimit : ℚ) :
    String :=
  let color := R.turn pos
  (findBestMove R r pos depth color).1

/-- Exported position evaluation (source function `evaluatePosition`):
parses the position string (` new Chess(fen)`, modelled by the external
parser `parse`, `none` standing for a thrown parse exception) and
returns the static evaluation.  The `depth` parameter is accepted but
never read. -/
def evaluatePosition (parse : String → Option P) (R : Rules P) (r : ℚ)
    (fen : String) (depth : Nat) : Option ℚ :=
  (parse fen).map (fun chess => evaluateBoard R r chess)

/-- Body of the `try` block of `solvePuzzle`: parse the position (a
parse failure is a thrown exception, modelled by `none`), search at
depth `min(mateIn * 2, 3)` for the side to move, and test whether the
best move's encoding occurs in the space-separated solution list. -/
def solvePuzzleCore (parse : String → Option P) (R : Rules P) (r : ℚ)
    (fen solution : String) (mateIn : Nat) : Option Bool :=
  (parse fen).map (fun chess =>
    let bestMove := (findBestMove R r chess (min (mateIn * 2) 3) (R.turn chess)).1
    let solutionMoves := solution.splitOn " "
    solutionMoves.contains bestMove)

/-- Exported puzzle solver (source function `solvePuzzle`): the whole
body runs inside `try ... catch`, any exception being converted to the
return value `false`.  The `timeLimit` parameter is accepted but never
read. -/
def solvePuzzle (parse : String → Option P) (R : Rules P) (r : ℚ)
    (fen solution : String) (mateIn : Nat) (timeLimit : ℚ) : Bool :=
  match solvePuzzleCore parse R r fen solution mateIn with
  | some solved => solved
  | none => false

/-!
Instrumentation of evaluation order.  The spec's capture-first-ordering
property is "observable via instrumentation of evaluation order"; the
following functions record, for one call of `minimax`, the moves the
top-level loop applies (in order), mirroring the loop control flow of
`maxLoop` / `minLoop` exactly, including the alpha-beta `break`.
-/

/-- Moves applied, in order, by the maximizing loop of one `minimax`
call (ghost instrumentation of `maxLoop`). -/
def maxLoopApplied (R : Rules P) (child : P → EScore → EScore × P) (beta : EScore) :
    List VMove → P → EScore → List VMove
  | [], _, _ => []
  | m :: ms, pos, alpha =>
      let pos1 := R.mv pos m
      let res := child pos1 alpha
      let pos2 := R.undo res.2
      let alpha2 := max alpha res.1
      if beta ≤ alpha2 then [m]
      else m :: maxLoopApplied R child beta ms pos2 alpha2

/-- Moves applied, in order, by the minimizing loop of one `minimax`
call (ghost instrumentation of `minLoop`). -/
def minLoopApplied (R : Rules P) (child : P → EScore → EScore × P) (alpha : EScore) :
    List VMove → P → EScore → List VMove
  | [], _, _ => []
  | m :: ms, pos, beta =>
      let pos1 := R.mv pos m
      let res := child pos1 beta
      let pos2 := R.undo res.2
      let beta2 := min beta res.1
      if beta2 ≤ alpha then [m]
      else m :: minLoopApplied R child alpha ms pos2 beta2

/-- Moves applied, in order, at the top node of one `minimax` call:
none at a leaf (depth 0 or game over), otherwise the moves its loop
applies. -/
def minimaxApplied (R : Rules P) (r : ℚ) (d : Nat) (pos : P)
    (alpha beta : EScore) (isMaximizing : Bool) : List VMove :=
  match d with
  | 0 => []
  | d'+1 =>
      if R.isGameOver pos then []
      else if isMaximizing then
        maxLoopApplied R (fun q a => minimax R r d' q a beta false) beta (R.moves pos) pos alpha
      else
        minLoopApplied R (fun q b => minimax R r d' q alpha b true) alpha (R.moves pos) pos beta

/-- The property that every capturing move of a list comes before every
non-capturing move: for every earlier/later pair, if the later move is
a capture then so is the earlier one. -/
def capturesFirst (l : List VMove) : Prop :=
  l.Pairwise (fun a b => b.captured.isSome → a.captured.isSome)

/-!
Reference (spec-side) definitions, written from the specification's
words, to be compared with the source-derived engine above.
-/

/-- Maximum of a list of extended scores starting from `-Infinity`. -/
def maxList (l : List EScore) : EScore := l.foldl max ⊥

/-- Minimum of a list of extended scores starting from `Infinity`. -/
def minList (l : List EScore) : EScore := l.foldl min ⊤

/-- Modelled from the spec: an unpruned full minimax over the same
evaluation function — identical traversal but with no alpha-beta window
and no cutoff, the maximizing side taking the maximum and the
minimizing side the minimum over all children. -/
def plainMinimax (R : Rules P) (r : ℚ) : Nat → P → Bool → EScore
  | 0, pos, _ => qs (evaluateBoard R r pos)
  | d+1, pos, isMaximizing =>
      if R.isGameOver pos then qs (evaluateBoard R r pos)
      else if isMaximizing then
        maxList ((R.moves pos).map (fun m => plainMinimax R r d (R.mv pos m) false))
      else
        minList ((R.moves pos).map (fun m => plainMinimax R r d (R.mv pos m) true))

/-- Modelled from the spec: the move-selection loop of an unpruned
search — same capture-first order, same strict-improvement update, but
scoring children by `plainMinimax`. -/
def plainFindLoop (R : Rules P) (r : ℚ) (pos : P) (depth : Nat) (playerColor : Color) :
    List VMove → String → EScore → String
  | [], bestMove, _ => bestMove
  | m :: ms, bestMove, bestScore =>
      let s := plainMinimax R r (depth - 1) (R.mv pos m)
        (if playerColor = Color.w then false else true)
      if (playerColor = Color.w ∧ bestScore < s) ∨
         (playerColor = Color.b ∧ s < bestScore) then
        plainFindLoop R r pos depth playerColor ms (uciOf m) s
      else
        plainFindLoop R r pos depth playerColor ms bestMove bestScore

/-- Modelled from the spec: the move chosen by an unpruned full minimax
search, with the same capture-first enumeration, first-on-ties
tie-break, and first-legal-move fallback as `findBestMove`. -/
def plainFindBestMove (R : Rules P) (r : ℚ) (pos : P) (depth : Nat)
    (playerColor : Color) : String :=
  let ms := sortCapturesFirst (R.moves pos)
  let initScore : EScore := if playerColor = Color.w then ⊥ else ⊤
  let bm := plainFindLoop R r pos depth playerColor ms "" initScore
  if bm = "" then
    match ms with
    | [] => bm
    | first :: _ => uciOf first
  else bm

/-- Modelled from the spec: the first move of a list that maximizes a
score function — a later move of equal score is never preferred. -/
def firstMax (f : VMove → ℚ) : List VMove → Option VMove
  | [] => none
  | m :: ms =>
      match firstMax f ms with
      | none => some m
      | some mb => if f m < f mb then some mb else some m

/-- Modelled from the spec: the first move of a list that minimizes a
score function — a later move of equal score is never preferred. -/
def firstMin (f : VMove → ℚ) : List VMove → Option VMove
  | [] => none
  | m :: ms =>
      match firstMin f ms with
      | none => some m
      | some mb => if f mb < f m then some mb else some m

/-!
Concrete toy instantiation of the Rules Adapter, used to exhibit
concrete runs of the engine.  A position is the list of moves played so
far; applying a move appends it and undoing drops the last move, so the
chess.js apply/undo contract holds definitionally.
-/

/-- Toy position type: the history of played moves. -/
abbrev ToyPos : Type := List VMove

/-- Toy Rules Adapter built from a legal-move table and terminal
flags. -/
def toyRules (movesOf : List VMove → List VMove) (go cm dr : List VMove → Bool)
    (turnOf : List VMove → Color) : Rules ToyPos where
  turn := turnOf
  moves := movesOf
  mv p m := p ++ [m]
  undo p := p.dropLast
  isGameOver := go
  isCheckmate := cm
  isDraw := dr
  board _ _ _ := none
  history p := p

/-- A non-capturing toy move. -/
def tmPlain : VMove := ⟨"a2", "a3", none, none, Color.w⟩

/-- A capturing toy move (a pawn is captured). -/
def tmCapt : VMove := ⟨"b2", "c3", none, some PieceSymbol.p, Color.w⟩

/-- Toy legal-move table: the initial position offers a non-capturing
move followed by a capturing move (this is the order the move generator
returns them in); every later position has no moves. -/
def toyMoves : List VMove → List VMove :=
  fun p => if p = [] then [tmPlain, tmCapt] else []

/-- Toy rules: game over exactly when no legal moves remain; never
checkmate, never a draw; White to move. -/
def toyR : Rules ToyPos :=
  toyRules toyMoves (fun p => (toyMoves p).isEmpty) (fun _ => false) (fun _ => false)
    (fun _ => Color.w)

/-- The toy apply/undo pair restores the position, as chess.js
guarantees. -/
theorem toyR_undo_mv : ∀ (p : ToyPos) (m : VMove), toyR.undo (toyR.mv p m) = p := by
  intro p m
  simp [toyR, toyRules]

/-!
State preservation: under the chess.js contract that `undo` reverts the
last applied move, every search function returns the position object in
exactly the state it received it, on every control path including
alpha-beta cutoffs.
-/

/-- The maximizing loop restores the position state. -/
theorem maxLoop_snd (R : Rules P) (child : P → EScore → EScore × P) (beta : EScore)
    (hundo : ∀ p m, R.undo (R.mv p m) = p) (hchild : ∀ q a, (child q a).2 = q) :
    ∀ (ms : List VMove) (pos : P) (acc alpha : EScore),
      (maxLoop R child beta ms pos acc alpha).2 = pos := by
  intro ms
  induction ms with
  | nil => intro pos acc alpha; rfl
  | cons m ms ih =>
      intro pos acc alpha
      simp only [maxLoop, hchild, hundo]
      split
      · rfl
      · exact ih pos _ _

/-- The minimizing loop restores the position state. -/
theorem minLoop_snd (R : Rules P) (child : P → EScore → EScore × P) (alpha : EScore)
    (hundo : ∀ p m, R.undo (R.mv p m) = p) (hchild : ∀ q b, (child q b).2 = q) :
    ∀ (ms : List VMove) (pos : P) (acc beta : EScore),
      (minLoop R child alpha ms pos acc beta).2 = pos := by
  intro ms
  induction ms with
  | nil => intro pos acc beta; rfl
  | cons m ms ih =>
      intro pos acc beta
      simp only [minLoop, hchild, hundo]
      split
      · rfl
      · exact ih pos _ _

/-- Every `minimax` call restores the position state. -/
theorem minimax_snd (R : Rules P) (r : ℚ) (hundo : ∀ p m, R.undo (R.mv p m) = p) :
    ∀ (d : Nat) (pos : P) (alpha beta : EScore) (isMaximizing : Bool),
      (minimax R r d pos alpha beta isMaximizing).2 = pos := by
  intro d
  induction d with
  | zero => intro pos alpha beta isMaximizing; rfl
  | succ d ih =>
      intro pos alpha beta isMaximizing
      simp only [minimax]
      split
      · rfl
      · split
        · exact maxLoop_snd R _ beta hundo (fun q a => ih q a beta false) _ pos ⊥ alpha
        · exact minLoop_snd R _ alpha hundo (fun q b => ih q alpha b true) _ pos ⊤ beta

/-- The `findBestMove` loop restores the position state. -/
theorem findBestLoop_snd (R : Rules P) (r : ℚ) (depth : Nat) (c : Color)
    (hundo : ∀ p m, R.undo (R.mv p m) = p) :
    ∀ (ms : List VMove) (pos : P) (bm : String) (bs : EScore),
      (findBestLoop R r depth c ms pos bm bs).2.2 = pos := by
  intro ms
  induction ms with
  | nil => intro pos bm bs; rfl
  | cons m ms ih =>
      intro pos bm bs
      simp only [findBestLoop, minimax_snd R r hundo, hundo]
      split <;> split <;> exact ih pos _ _

/-- The whole best-move search restores the position state. -/
theorem findBestMove_snd (R : Rules P) (r : ℚ) (hundo : ∀ p m, R.undo (R.mv p m) = p)
    (pos : P) (depth : Nat) (c : Color) :
    (findBestMove R r pos depth c).2 = pos := by
  simp only [findBestMove]
  exact findBestLoop_snd R r depth c hundo _ pos "" _

/-!
Alpha-beta pruning is value-preserving.  The classical fail-soft
invariant: a search with window `(alpha, beta)` returns a value that is
an upper bound on the true minimax value when it fails low, a lower
bound when it fails high, and exact inside the window.
-/

/-- Fail-soft window guarantee of a pruned search value `v` against the
true (unpruned) value `g`. -/
def inWindow (alpha beta v g : EScore) : Prop :=
  (v ≤ alpha → g ≤ v) ∧ (beta ≤ v → v ≤ g) ∧ (alpha < v → v < beta → v = g)

/-- Folding `max` from an arbitrary seed is the `max` of the seed and
the bottom-seeded fold. -/
theorem foldl_max_eq (l : List EScore) : ∀ a : EScore, l.foldl max a = max a (maxList l) := by
  induction l with
  | nil => intro a; simp [maxList, max_eq_left bot_le]
  | cons h t ih =>
      intro a
      have ht : maxList (h :: t) = max h (maxList t) := by
        simp only [maxList, List.foldl_cons]
        rw [ih (max ⊥ h), max_eq_right bot_le]
        rfl
      rw [ht, List.foldl_cons, ih (max a h), max_assoc]

/-- Unfolding `maxList` over a cons cell. -/
theorem maxList_cons (a : EScore) (l : List EScore) : maxList (a :: l) = max a (maxList l) := by
  simp only [maxList, List.foldl_cons]
  rw [foldl_max_eq l (max ⊥ a), max_eq_right bot_le]
  rfl

/-- Folding `min` from an arbitrary seed is the `min` of the seed and
the top-seeded fold. -/
theorem foldl_min_eq (l : List EScore) : ∀ a : EScore, l.foldl min a = min a (minList l) := by
  induction l with
  | nil => intro a; simp [minList, min_eq_left le_top]
  | cons h t ih =>
      intro a
      have ht : minList (h :: t) = min h (minList t) := by
        simp only [minList, List.foldl_cons]
        rw [ih (min ⊤ h), min_eq_right le_top]
        rfl
      rw [ht, List.foldl_cons, ih (min a h), min_assoc]

/-- Unfolding `minList` over a cons cell. -/
theorem minList_cons (a : EScore) (l : List EScore) : minList (a :: l) = min a (minList l) := by
  simp only [minList, List.foldl_cons]
  rw [foldl_min_eq l (min ⊤ a), min_eq_right le_top]
  rfl

/-- The maximizing loop only ever raises its accumulator. -/
theorem le_maxLoop (R : Rules P) (child : P → EScore → EScore × P) (beta : EScore) :
    ∀ (ms : List VMove) (pos : P) (acc alpha : EScore),
      acc ≤ (maxLoop R child beta ms pos acc alpha).1 := by
  intro ms
  induction ms with
  | nil => intro pos acc alpha; exact le_refl acc
  | cons m ms ih =>
      intro pos acc alpha
      simp only [maxLoop]
      split
      · exact le_max_left _ _
      · exact le_trans (le_max_left _ _) (ih _ _ _)

/-- The minimizing loop only ever lowers its accumulator. -/
theorem minLoop_le (R : Rules P) (child : P → EScore → EScore × P) (alpha : EScore) :
    ∀ (ms : List VMove) (pos : P) (acc beta : EScore),
      (minLoop R child alpha ms pos acc beta).1 ≤ acc := by
  intro ms
  induction ms with
  | nil => intro pos acc beta; exact le_refl acc
  | cons m ms ih =>
      intro pos acc beta
      simp only [minLoop]
      split
      · exact min_le_left _ _
      · exact le_trans (ih _ _ _) (min_le_left _ _)

/-- Window lemma for the maximizing loop: relative to the pure
per-child values `pure`, the loop value is an upper bound of the
remaining true value when failing low, a lower bound when failing high,
and exact inside the window. -/
theorem maxLoop_window (R : Rules P) (child : P → EScore → EScore × P) (beta : EScore)
    (pure : VMove → EScore) (pos0 : P)
    (hundo : ∀ p m, R.undo (R.mv p m) = p)
    (hsnd : ∀ q a, (child q a).2 = q)
    (hchild : ∀ (m : VMove) (a : EScore), a < beta →
      inWindow a beta (child (R.mv pos0 m) a).1 (pure m)) :
    ∀ (ms : List VMove) (acc alpha : EScore), acc ≤ alpha → alpha < beta →
      ((maxLoop R child beta ms pos0 acc alpha).1 ≤ alpha →
        max acc (maxList (ms.map pure)) ≤ (maxLoop R child beta ms pos0 acc alpha).1) ∧
      (beta ≤ (maxLoop R child beta ms pos0 acc alpha).1 →
        (maxLoop R child beta ms pos0 acc alpha).1 ≤ maxList (ms.map pure)) ∧
      (alpha < (maxLoop R child beta ms pos0 acc alpha).1 →
        (maxLoop R child beta ms pos0 acc alpha).1 < beta →
        (maxLoop R child beta ms pos0 acc alpha).1 = max acc (maxList (ms.map pure))) := by
  intro ms
  induction ms with
  | nil =>
      intro acc alpha hacc hab
      have hv : (maxLoop R child beta [] pos0 acc alpha).1 = acc := rfl
      refine ⟨fun h1 => ?_, fun h2 => ?_, fun h3 _ => ?_⟩
      · rw [hv]
        simp [maxList]
      · rw [hv] at h2
        exact absurd (lt_of_lt_of_le hab h2) (not_lt_of_le hacc)
      · rw [hv] at h3
        exact absurd h3 (not_lt_of_le hacc)
  | cons m ms ih =>
      intro acc alpha hacc hab
      obtain ⟨hC1, hC2, hC3⟩ := hchild m alpha hab
      simp only [maxLoop, hsnd, hundo, List.map_cons, maxList_cons]
      set s := (child (R.mv pos0 m) alpha).1 with hs
      by_cases hbr : beta ≤ max alpha s
      · -- alpha-beta cutoff
        have hbs : beta ≤ s := by
          by_contra hns
          exact absurd hbr (not_le_of_lt (max_lt hab (lt_of_not_le hns)))
        have hsg : s ≤ pure m := hC2 hbs
        have haccs : acc < s := lt_of_le_of_lt hacc (lt_of_lt_of_le hab hbs)
        have hv : max acc s = s := max_eq_right (le_of_lt haccs)
        rw [if_pos hbr, hv]
        refine ⟨fun h => ?_, fun _ => ?_, fun _ h2 => ?_⟩
        · exact absurd (lt_of_le_of_lt (hbs.trans h) hab) (lt_irrefl beta)
        · exact le_trans hsg (le_max_left _ _)
        · exact absurd h2 (not_lt_of_le hbs)
      · -- no cutoff: continue the loop
        have hab' : max alpha s < beta := lt_of_not_le hbr
        have hsb : s < beta := lt_of_le_of_lt (le_max_right _ _) hab'
        have hgs : pure m ≤ s := by
          by_cases hsa : s ≤ alpha
          · exact hC1 hsa
          · exact le_of_eq (hC3 (lt_of_not_le hsa) hsb).symm
        have hacc' : max acc s ≤ max alpha s := max_le_max hacc (le_refl s)
        obtain ⟨hI1, hI2, hI3⟩ := ih (max acc s) (max alpha s) hacc' hab'
        rw [if_neg hbr]
        set v := (maxLoop R child beta ms pos0 (max acc s) (max alpha s)).1 with hvdef
        refine ⟨fun hv => ?_, fun hv => ?_, fun hv1 hv2 => ?_⟩
        · -- fail low
          have hva' : v ≤ max alpha s := le_trans hv (le_max_left _ _)
          have h1 := hI1 hva'
          calc max acc (max (pure m) (maxList (ms.map pure)))
              ≤ max acc (max s (maxList (ms.map pure))) :=
                max_le_max (le_refl acc) (max_le_max hgs (le_refl _))
            _ = max (max acc s) (maxList (ms.map pure)) := (max_assoc acc s _).symm
            _ ≤ v := h1
        · -- fail high
          exact le_trans (hI2 hv) (le_max_right _ _)
        · -- exact inside the window
          by_cases hav : max alpha s < v
          · have h3 := hI3 hav hv2
            have hsv : s < v := lt_of_le_of_lt (le_max_right _ _) hav
            have haccv : acc < v := lt_of_le_of_lt hacc (lt_of_le_of_lt (le_max_left _ _) hav)
            have hvX : v = maxList (ms.map pure) := by
              rcases max_choice (max acc s) (maxList (ms.map pure)) with hc | hc
              · rw [h3, hc] at hav
                exact absurd hav (not_lt_of_le hacc')
              · rw [h3, hc]
            have hgv : pure m < v := lt_of_le_of_lt hgs hsv
            have h1 : max (pure m) (maxList (ms.map pure)) = maxList (ms.map pure) :=
              max_eq_right (le_of_lt (lt_of_lt_of_eq hgv hvX))
            have h2 : max acc (maxList (ms.map pure)) = maxList (ms.map pure) :=
              max_eq_right (le_of_lt (lt_of_lt_of_eq haccv hvX))
            rw [h1, h2]
            exact hvX
          · -- the first child attains the loop value
            have hvas : v ≤ max alpha s := le_of_not_lt hav
            have haccsv : max acc s ≤ v := le_maxLoop R child beta ms pos0 (max acc s) (max alpha s)
            have hsv : v ≤ s := by
              rcases max_choice alpha s with hc | hc
              · rw [hc] at hvas
                exact absurd hv1 (not_lt_of_le hvas)
              · exact hc ▸ hvas
            have hvs : v = s := le_antisymm hsv (le_trans (le_max_right acc s) haccsv)
            have hgv : s = pure m := hC3 (hvs ▸ hv1) hsb
            have hXv : maxList (ms.map pure) ≤ v := le_trans (le_max_right (max acc s) _) (hI1 hvas)
            have hXs : maxList (ms.map pure) ≤ s := hvs ▸ hXv
            have haccS : acc ≤ s := le_trans (le_max_left acc s) (hvs ▸ haccsv)
            rw [← hgv, max_eq_left hXs, max_eq_right haccS]
            exact hvs

/-- Window lemma for the minimizing loop, dual to `maxLoop_window`. -/
theorem minLoop_window (R : Rules P) (child : P → EScore → EScore × P) (alpha : EScore)
    (pure : VMove → EScore) (pos0 : P)
    (hundo : ∀ p m, R.undo (R.mv p m) = p)
    (hsnd : ∀ q b, (child q b).2 = q)
    (hchild : ∀ (m : VMove) (b : EScore), alpha < b →
      inWindow alpha b (child (R.mv pos0 m) b).1 (pure m)) :
    ∀ (ms : List VMove) (acc beta : EScore), beta ≤ acc → alpha < beta →
      (beta ≤ (minLoop R child alpha ms pos0 acc beta).1 →
        (minLoop R child alpha ms pos0 acc beta).1 ≤ min acc (minList (ms.map pure))) ∧
      ((minLoop R child alpha ms pos0 acc beta).1 ≤ alpha →
        minList (ms.map pure) ≤ (minLoop R child alpha ms pos0 acc beta).1) ∧
      (alpha < (minLoop R child alpha ms pos0 acc beta).1 →
        (minLoop R child alpha ms pos0 acc beta).1 < beta →
        (minLoop R child alpha ms pos0 acc beta).1 = min acc (minList (ms.map pure))) := by
  intro ms
  induction ms with
  | nil =>
      intro acc beta hacc hab
      have hv : (minLoop R child alpha [] pos0 acc beta).1 = acc := rfl
      refine ⟨fun h1 => ?_, fun h2 => ?_, fun _ h4 => ?_⟩
      · rw [hv]
        simp [minList]
      · rw [hv] at h2
        exact absurd (lt_of_lt_of_le hab (le_trans hacc h2)) (lt_irrefl alpha)
      · rw [hv] at h4
        exact absurd h4 (not_lt_of_le hacc)
  | cons m ms ih =>
      intro acc beta hacc hab
      obtain ⟨hC1, hC2, hC3⟩ := hchild m beta hab
      simp only [minLoop, hsnd, hundo, List.map_cons, minList_cons]
      set s := (child (R.mv pos0 m) beta).1 with hs
      by_cases hbr : min beta s ≤ alpha
      · -- alpha-beta cutoff
        have hsa : s ≤ alpha := by
          by_contra hns
          exact absurd hbr (not_le_of_lt (lt_min hab (lt_of_not_le hns)))
        have hgs : pure m ≤ s := hC1 hsa
        have hsacc : s < acc := lt_of_le_of_lt hsa (lt_of_lt_of_le hab hacc)
        have hv : min acc s = s := min_eq_right (le_of_lt hsacc)
        rw [if_pos hbr, hv]
        refine ⟨fun h => ?_, fun _ => ?_, fun h1 _ => ?_⟩
        · exact absurd (lt_of_lt_of_le hab (h.trans hsa)) (lt_irrefl alpha)
        · exact le_trans (min_le_left _ _) hgs
        · exact absurd h1 (not_lt_of_le hsa)
      · -- no cutoff: continue the loop
        have hab' : alpha < min beta s := lt_of_not_le hbr
        have has : alpha < s := lt_of_lt_of_le hab' (min_le_right _ _)
        have hgs : s ≤ pure m := by
          by_cases hbs : beta ≤ s
          · exact hC2 hbs
          · exact le_of_eq (hC3 has (lt_of_not_le hbs))
        have hacc' : min beta s ≤ min acc s := min_le_min hacc (le_refl s)
        obtain ⟨hI1, hI2, hI3⟩ := ih (min acc s) (min beta s) hacc' hab'
        rw [if_neg hbr]
        set v := (minLoop R child alpha ms pos0 (min acc s) (min beta s)).1 with hvdef
        refine ⟨fun hv => ?_, fun hv => ?_, fun hv1 hv2 => ?_⟩
        · -- fail high
          have h1 := hI1 (le_trans (min_le_left _ _) hv)
          calc v ≤ min (min acc s) (minList (ms.map pure)) := h1
            _ = min acc (min s (minList (ms.map pure))) := min_assoc acc s _
            _ ≤ min acc (min (pure m) (minList (ms.map pure))) :=
                min_le_min (le_refl acc) (min_le_min hgs (le_refl _))
        · -- fail low
          exact le_trans (min_le_right _ _) (hI2 hv)
        · -- exact inside the window
          by_cases hvm : v < min beta s
          · have h3 := hI3 hv1 hvm
            have hvs : v < s := lt_of_lt_of_le hvm (min_le_right _ _)
            have hvacc : v < acc := lt_of_lt_of_le hvm (le_trans (min_le_left _ _) hacc)
            have hvX : v = minList (ms.map pure) := by
              rcases min_choice (min acc s) (minList (ms.map pure)) with hc | hc
              · rw [h3, hc] at hvm
                exact absurd hvm (not_lt_of_le hacc')
              · rw [h3, hc]
            have hgv : v < pure m := lt_of_lt_of_le hvs hgs
            have h1 : min (pure m) (minList (ms.map pure)) = minList (ms.map pure) :=
              min_eq_right (le_of_lt (lt_of_eq_of_lt hvX.symm hgv))
            have h2 : min acc (minList (ms.map pure)) = minList (ms.map pure) :=
              min_eq_right (le_of_lt (lt_of_eq_of_lt hvX.symm hvacc))
            rw [h1, h2]
            exact hvX
          · -- the first child attains the loop value
            have hms : min beta s ≤ v := le_of_not_lt hvm
            have hvacc' : v ≤ min acc s :=
              minLoop_le R child alpha ms pos0 (min acc s) (min beta s)
            have hvs : v ≤ s := le_trans hvacc' (min_le_right _ _)
            have hsv : s ≤ v := by
              rcases min_choice beta s with hc | hc
              · rw [hc] at hms
                exact absurd (lt_of_le_of_lt hms hv2) (lt_irrefl beta)
              · rw [hc] at hms
                exact hms
            have hveq : v = s := le_antisymm hvs hsv
            have hgv : s = pure m := hC3 (hveq ▸ hv1) (hveq ▸ hv2)
            have hXv : v ≤ minList (ms.map pure) := le_trans (hI1 hms) (min_le_right _ _)
            have h1 : min (pure m) (minList (ms.map pure)) = pure m := by
              refine min_eq_left ?_
              rw [← hgv, ← hveq]
              exact hXv
            have h2 : min acc (pure m) = pure m := by
              refine min_eq_right ?_
              rw [← hgv, ← hveq]
              exact le_trans hvacc' (min_le_left _ _)
            rw [h1, h2, ← hgv]
            exact hveq

/-- Every `minimax` call satisfies the fail-soft window guarantee
against the unpruned minimax value. -/
theorem minimax_window (R : Rules P) (r : ℚ) (hundo : ∀ p m, R.undo (R.mv p m) = p) :
    ∀ (d : Nat) (pos : P) (alpha beta : EScore) (isMaximizing : Bool), alpha < beta →
      inWindow alpha beta (minimax R r d pos alpha beta isMaximizing).1
        (plainMinimax R r d pos isMaximizing) := by
  intro d
  induction d with
  | zero =>
      intro pos alpha beta isMaximizing hab
      exact ⟨fun _ => le_refl _, fun _ => le_refl _, fun _ _ => rfl⟩
  | succ d ih =>
      intro pos alpha beta isMaximizing hab
      simp only [minimax, plainMinimax]
      split
      · exact ⟨fun _ => le_refl _, fun _ => le_refl _, fun _ _ => rfl⟩
      · split
        · -- maximizing node
          obtain ⟨h1, h2, h3⟩ :=
            maxLoop_window R (fun q a => minimax R r d q a beta false) beta
              (fun m => plainMinimax R r d (R.mv pos m) false) pos hundo
              (fun q a => minimax_snd R r hundo d q a beta false)
              (fun m a ha => ih (R.mv pos m) a beta false ha)
              (R.moves pos) ⊥ alpha bot_le hab
          rw [max_eq_right bot_le] at h1 h3
          exact ⟨h1, h2, h3⟩
        · -- minimizing node
          obtain ⟨h1, h2, h3⟩ :=
            minLoop_window R (fun q b => minimax R r d q alpha b true) alpha
              (fun m => plainMinimax R r d (R.mv pos m) true) pos hundo
              (fun q b => minimax_snd R r hundo d q alpha b true)
              (fun m b hb => ih (R.mv pos m) alpha b true hb)
              (R.moves pos) ⊤ beta le_top hab
          rw [min_eq_right le_top] at h1 h3
          exact ⟨h2, h1, h3⟩

/-- With the full root window, the pruned search returns exactly the
unpruned minimax value. -/
theorem minimax_bot_top (R : Rules P) (r : ℚ) (hundo : ∀ p m, R.undo (R.mv p m) = p)
    (d : Nat) (pos : P) (isMaximizing : Bool) :
    (minimax R r d pos ⊥ ⊤ isMaximizing).1 = plainMinimax R r d pos isMaximizing := by
  obtain ⟨h1, h2, h3⟩ :=
    minimax_window R r hundo d pos ⊥ ⊤ isMaximizing (by decide)
  by_cases hb : (minimax R r d pos ⊥ ⊤ isMaximizing).1 ≤ ⊥
  · have hv : (minimax R r d pos ⊥ ⊤ isMaximizing).1 = ⊥ := le_bot_iff.mp hb
    have hg := h1 hb
    rw [hv] at hg ⊢
    exact (le_bot_iff.mp hg).symm
  · by_cases ht : ⊤ ≤ (minimax R r d pos ⊥ ⊤ isMaximizing).1
    · have hv : (minimax R r d pos ⊥ ⊤ isMaximizing).1 = ⊤ := top_le_iff.mp ht
      have hg := h2 ht
      rw [hv] at hg ⊢
      exact (top_le_iff.mp hg).symm
    · exact h3 (lt_of_not_le hb) (lt_of_not_le ht)

/-- The `findBestMove` loop computes the same running best as the
unpruned selection loop. -/
theorem findBestLoop_eq_plain (R : Rules P) (r : ℚ)
    (hundo : ∀ p m, R.undo (R.mv p m) = p) (depth : Nat) (c : Color) (pos : P) :
    ∀ (ms : List VMove) (bm : String) (bs : EScore),
      (findBestLoop R r depth c ms pos bm bs).1 = plainFindLoop R r pos depth c ms bm bs := by
  intro ms
  induction ms with
  | nil => intro bm bs; rfl
  | cons m ms ih =>
      intro bm bs
      simp only [findBestLoop, plainFindLoop, minimax_snd R r hundo, hundo,
        minimax_bot_top R r hundo]
      split <;> split <;> exact ih _ _

/-- The pruned best-move search chooses the same move as the unpruned
search. -/
theorem findBestMove_eq_plain (R : Rules P) (r : ℚ)
    (hundo : ∀ p m, R.undo (R.mv p m) = p) (pos : P) (depth : Nat) (c : Color) :
    (findBestMove R r pos depth c).1 = plainFindBestMove R r pos depth c := by
  simp only [findBestMove, plainFindBestMove, findBestLoop_eq_plain R r hundo]

/-!
Depth-1 behaviour: with one ply of search, the loop of `findBestMove`
selects the first move (in the enumeration order) whose resulting
position has the best static evaluation.
-/

/-- Order embedding of finite scores: strict comparison. -/
theorem qs_lt_qs {a b : ℚ} : qs a < qs b ↔ a < b := by
  simp [qs]

/-- Order embedding of finite scores: non-strict comparison. -/
theorem qs_le_qs {a b : ℚ} : qs a ≤ qs b ↔ a ≤ b := by
  simp [qs]

/-- Finite scores are above the `-Infinity` sentinel. -/
theorem bot_lt_qs (a : ℚ) : (⊥ : EScore) < qs a := by
  simp [qs]

/-- Finite scores are below the `Infinity` sentinel. -/
theorem qs_lt_top (a : ℚ) : qs a < (⊤ : EScore) := by
  have h : ((⊤ : WithTop ℚ) : EScore) = ⊤ := rfl
  rw [qs, ← h]
  exact WithBot.coe_lt_coe.mpr (WithTop.coe_lt_top a)

/-- White and Black are distinct colors. -/
theorem color_w_ne_b : (Color.w = Color.b) = False := by
  simp

/-- Black and White are distinct colors. -/
theorem color_b_ne_w : (Color.b = Color.w) = False := by
  simp

/-- Depth-1 White loop: the loop of `findBestMove` at depth 1 adopts
the first strict improvement, hence ends at the first maximizer of the
static evaluation of the child position (or keeps its accumulator if no
move beats it). -/
theorem findBestLoop_one_w (R : Rules P) (r : ℚ)
    (hundo : ∀ p m, R.undo (R.mv p m) = p) (pos : P) :
    ∀ (ms : List VMove) (bm : String) (bs : EScore),
      (findBestLoop R r 1 Color.w ms pos bm bs).1 =
        (match firstMax (fun m => evaluateBoard R r (R.mv pos m)) ms with
         | none => bm
         | some mb => if bs < qs (evaluateBoard R r (R.mv pos mb)) then uciOf mb else bm) := by
  intro ms
  induction ms with
  | nil => intro bm bs; rfl
  | cons m ms ih =>
      intro bm bs
      simp only [findBestLoop, Nat.sub_self, minimax, hundo, eq_self_iff_true, true_and,
        color_w_ne_b, false_and, or_false, if_true, firstMax]
      cases hfm : firstMax (fun m => evaluateBoard R r (R.mv pos m)) ms with
      | none =>
          simp only [hfm] at ih ⊢
          split <;> rw [ih]
      | some mb =>
          simp only [hfm] at ih ⊢
          by_cases hcmp : evaluateBoard R r (R.mv pos m) < evaluateBoard R r (R.mv pos mb)
          · rw [if_pos hcmp]
            split
            · rename_i hbs
              rw [ih, if_pos (qs_lt_qs.mpr hcmp)]
              show uciOf mb = if bs < qs (evaluateBoard R r (R.mv pos mb)) then uciOf mb else bm
              rw [if_pos (lt_trans hbs (qs_lt_qs.mpr hcmp))]
            · rw [ih]
          · rw [if_neg hcmp]
            split
            · rename_i hbs
              rw [ih, if_neg (fun h => hcmp (qs_lt_qs.mp h))]
              show uciOf m = if bs < qs (evaluateBoard R r (R.mv pos m)) then uciOf m else bm
              rw [if_pos hbs]
            · rename_i hbs
              rw [ih, if_neg (fun h => hbs (lt_of_lt_of_le h (qs_le_qs.mpr (le_of_not_lt hcmp))))]
              show bm = if bs < qs (evaluateBoard R r (R.mv pos m)) then uciOf m else bm
              rw [if_neg hbs]

/-- Depth-1 Black loop, dual to `findBestLoop_one_w`: the loop ends at
the first minimizer of the static evaluation of the child position. -/
theorem findBestLoop_one_b (R : Rules P) (r : ℚ)
    (hundo : ∀ p m, R.undo (R.mv p m) = p) (pos : P) :
    ∀ (ms : List VMove) (bm : String) (bs : EScore),
      (findBestLoop R r 1 Color.b ms pos bm bs).1 =
        (match firstMin (fun m => evaluateBoard R r (R.mv pos m)) ms with
         | none => bm
         | some mb => if qs (evaluateBoard R r (R.mv pos mb)) < bs then uciOf mb else bm) := by
  intro ms
  induction ms with
  | nil => intro bm bs; rfl
  | cons m ms ih =>
      intro bm bs
      simp only [findBestLoop, Nat.sub_self, minimax, hundo, eq_self_iff_true, true_and,
        color_b_ne_w, false_and, false_or, if_false, firstMin]
      cases hfm : firstMin (fun m => evaluateBoard R r (R.mv pos m)) ms with
      | none =>
          simp only [hfm] at ih ⊢
          split <;> rw [ih]
      | some mb =>
          simp only [hfm] at ih ⊢
          by_cases hcmp : evaluateBoard R r (R.mv pos mb) < evaluateBoard R r (R.mv pos m)
          · rw [if_pos hcmp]
            split
            · rename_i hbs
              rw [ih, if_pos (qs_lt_qs.mpr hcmp)]
              show uciOf mb = if qs (evaluateBoard R r (R.mv pos mb)) < bs then uciOf mb else bm
              rw [if_pos (lt_trans (qs_lt_qs.mpr hcmp) hbs)]
            · rw [ih]
          · rw [if_neg hcmp]
            split
            · rename_i hbs
              rw [ih, if_neg (fun h => hcmp (qs_lt_qs.mp h))]
              show uciOf m = if qs (evaluateBoard R r (R.mv pos m)) < bs then uciOf m else bm
              rw [if_pos hbs]
            · rename_i hbs
              rw [ih, if_neg (fun h => hbs (lt_of_le_of_lt (qs_le_qs.mpr (le_of_not_lt hcmp)) h))]
              show bm = if qs (evaluateBoard R r (R.mv pos m)) < bs then uciOf m else bm
              rw [if_neg hbs]

/-- Sorting captures first of a nonempty move list is nonempty. -/
theorem sortCapturesFirst_ne_nil {l : List VMove} (h : l ≠ []) :
    sortCapturesFirst l ≠ [] := by
  cases l with
  | nil => exact absurd rfl h
  | cons m ms =>
      intro hemp
      rw [sortCapturesFirst] at hemp
      rcases List.append_eq_nil.mp hemp with ⟨h1, h2⟩
      by_cases hc : m.captured.isSome
      · exact (List.filter_eq_nil_iff.mp h1) m (List.mem_cons_self m ms) hc
      · exact (List.filter_eq_nil_iff.mp h2) m (List.mem_cons_self m ms) (by simpa using hc)

/-- Sorting captures first preserves the set of moves. -/
theorem mem_sortCapturesFirst {l : List VMove} {a : VMove} :
    a ∈ sortCapturesFirst l ↔ a ∈ l := by
  constructor
  · intro h
    rcases List.mem_append.mp h with h1 | h1
    · exact (List.mem_filter.mp h1).1
    · exact (List.mem_filter.mp h1).1
  · intro h
    by_cases hc : a.captured.isSome
    · exact List.mem_append.mpr (Or.inl (List.mem_filter.mpr ⟨h, hc⟩))
    · exact List.mem_append.mpr (Or.inr (List.mem_filter.mpr ⟨h, by simpa using hc⟩))

/-- The first maximizer belongs to the list. -/
theorem firstMax_mem {f : VMove → ℚ} :
    ∀ {ms : List VMove} {mb : VMove}, firstMax f ms = some mb → mb ∈ ms := by
  intro ms
  induction ms with
  | nil => intro mb h; exact absurd h (by simp [firstMax])
  | cons m ms ih =>
      intro mb h
      rw [firstMax] at h
      cases hfm : firstMax f ms with
      | none =>
          simp only [hfm] at h
          cases h
          exact List.mem_cons_self _ _
      | some mc =>
          simp only [hfm] at h
          by_cases hcmp : f m < f mc
          · rw [if_pos hcmp] at h
            cases h
            exact List.mem_cons_of_mem _ (ih hfm)
          · rw [if_neg hcmp] at h
            cases h
            exact List.mem_cons_self _ _

/-- The first minimizer belongs to the list. -/
theorem firstMin_mem {f : VMove → ℚ} :
    ∀ {ms : List VMove} {mb : VMove}, firstMin f ms = some mb → mb ∈ ms := by
  intro ms
  induction ms with
  | nil => intro mb h; exact absurd h (by simp [firstMin])
  | cons m ms ih =>
      intro mb h
      rw [firstMin] at h
      cases hfm : firstMin f ms with
      | none =>
          simp only [hfm] at h
          cases h
          exact List.mem_cons_self _ _
      | some mc =>
          simp only [hfm] at h
          by_cases hcmp : f mc < f m
          · rw [if_pos hcmp] at h
            cases h
            exact List.mem_cons_of_mem _ (ih hfm)
          · rw [if_neg hcmp] at h
            cases h
            exact List.mem_cons_self _ _

/-- A nonempty list has a first maximizer. -/
theorem firstMax_isSome {f : VMove → ℚ} {ms : List VMove} (h : ms ≠ []) :
    ∃ mb, firstMax f ms = some mb := by
  cases ms with
  | nil => exact absurd rfl h
  | cons m ms =>
      rw [firstMax]
      cases firstMax f ms with
      | none => exact ⟨m, rfl⟩
      | some mc =>
          by_cases hcmp : f m < f mc
          · refine ⟨mc, ?_⟩
            show (if f m < f mc then some mc else some m) = some mc
            rw [if_pos hcmp]
          · refine ⟨m, ?_⟩
            show (if f m < f mc then some mc else some m) = some m
            rw [if_neg hcmp]

/-- A nonempty list has a first minimizer. -/
theorem firstMin_isSome {f : VMove → ℚ} {ms : List VMove} (h : ms ≠ []) :
    ∃ mb, firstMin f ms = some mb := by
  cases ms with
  | nil => exact absurd rfl h
  | cons m ms =>
      rw [firstMin]
      cases firstMin f ms with
      | none => exact ⟨m, rfl⟩
      | some mc =>
          by_cases hcmp : f mc < f m
          · refine ⟨mc, ?_⟩
            show (if f mc < f m then some mc else some m) = some mc
            rw [if_pos hcmp]
          · refine ⟨m, ?_⟩
            show (if f mc < f m then some mc else some m) = some m
            rw [if_neg hcmp]

/-- The loop of `findBestMove` returns either its incoming accumulator
or the encoding of one of the listed moves. -/
theorem findBestLoop_fst_mem (R : Rules P) (r : ℚ) (depth : Nat) (c : Color) :
    ∀ (ms : List VMove) (pos : P) (bm : String) (bs : EScore),
      (findBestLoop R r depth c ms pos bm bs).1 = bm ∨
        ∃ m ∈ ms, (findBestLoop R r depth c ms pos bm bs).1 = uciOf m := by
  intro ms
  induction ms with
  | nil => intro pos bm bs; exact Or.inl rfl
  | cons m ms ih =>
      intro pos bm bs
      simp only [findBestLoop]
      split <;> split <;> rcases ih _ _ _ with h | ⟨m1, hm1, h⟩ <;>
        first
          | exact Or.inl h
          | exact Or.inr ⟨m, List.mem_cons_self _ _, h⟩
          | exact Or.inr ⟨m1, List.mem_cons_of_mem _ hm1, h⟩

/-!
Claim theorems.
-/

/-- C5: under the chess.js contract that `undo` reverts the last
applied move, every `minimax` call and every `findBestMove` call
returns with the position object restored to exactly its pre-call
state, on every control path — alpha-beta cutoff branches included — so
no mutated position leaks across sibling branches or back to the
caller. -/
theorem C5_search_restores_position (R : Rules P) (r : ℚ)
    (hundo : ∀ (p : P) (m : VMove), R.undo (R.mv p m) = p) :
    (∀ (d : Nat) (pos : P) (alpha beta : EScore) (isMaximizing : Bool),
       (minimax R r d pos alpha beta isMaximizing).2 = pos) ∧
    (∀ (pos : P) (depth : Nat) (c : Color), (findBestMove R r pos depth c).2 = pos) :=
  ⟨minimax_snd R r hundo, fun pos depth c => findBestMove_snd R r hundo pos depth c⟩

/-- Witness for C5 at the concrete toy instantiation. -/
theorem C5_witness :
    (∀ (p : ToyPos) (m : VMove), toyR.undo (toyR.mv p m) = p) ∧
    (minimax toyR 0 3 ([] : ToyPos) ⊥ ⊤ true).2 = ([] : ToyPos) ∧
    (findBestMove toyR 0 ([] : ToyPos) 2 Color.w).2 = ([] : ToyPos) :=
  ⟨toyR_undo_mv,
   (C5_search_restores_position toyR 0 toyR_undo_mv).1 3 [] ⊥ ⊤ true,
   (C5_search_restores_position toyR 0 toyR_undo_mv).2 [] 2 Color.w⟩

/-- C2: with the random source fixed (any fixed `r`, in particular 0)
and under the chess.js undo contract, minimax with alpha-beta pruning
returns, for every position and every depth, the same value as the
unpruned full minimax over the same evaluation function, and
consequently `findBestMove` chooses the same move as the unpruned
search. -/
theorem C2_alpha_beta_equals_plain (R : Rules P) (r : ℚ)
    (hundo : ∀ (p : P) (m : VMove), R.undo (R.mv p m) = p) :
    (∀ (d : Nat) (pos : P) (isMaximizing : Bool),
       (minimax R r d pos ⊥ ⊤ isMaximizing).1 = plainMinimax R r d pos isMaximizing) ∧
    (∀ (pos : P) (depth : Nat) (c : Color),
       (findBestMove R r pos depth c).1 = plainFindBestMove R r pos depth c) :=
  ⟨fun d pos isMaximizing => minimax_bot_top R r hundo d pos isMaximizing,
   fun pos depth c => findBestMove_eq_plain R r hundo pos depth c⟩

/-- Witness for C2 at the concrete toy instantiation. -/
theorem C2_witness :
    (∀ (p : ToyPos) (m : VMove), toyR.undo (toyR.mv p m) = p) ∧
    (minimax toyR 0 2 ([] : ToyPos) ⊥ ⊤ true).1 = plainMinimax toyR 0 2 ([] : ToyPos) true ∧
    (findBestMove toyR 0 ([] : ToyPos) 2 Color.w).1 =
      plainFindBestMove toyR 0 ([] : ToyPos) 2 Color.w :=
  ⟨toyR_undo_mv,
   (C2_alpha_beta_equals_plain toyR 0 toyR_undo_mv).1 2 [] true,
   (C2_alpha_beta_equals_plain toyR 0 toyR_undo_mv).2 [] 2 Color.w⟩

/-- C6: for every position, `getStockfishMove` returns the empty
string exactly when there are no legal moves, and otherwise returns the
coordinate encoding of some legal move (a non-empty string, given that
chess.js move encodings are non-empty).  Being a total function, it
throws no exception on any legal-position input. -/
theorem C6_empty_iff_no_moves (R : Rules P) (r : ℚ) (pos : P) (depth : Nat)
    (timeLimit : ℚ) (hmv : ∀ m ∈ R.moves pos, uciOf m ≠ "") :
    (getStockfishMove R r pos depth timeLimit = "" ↔ R.moves pos = []) ∧
    (R.moves pos ≠ [] →
      ∃ m ∈ R.moves pos, getStockfishMove R r pos depth timeLimit = uciOf m) := by
  have key : R.moves pos ≠ [] →
      ∃ m ∈ R.moves pos, getStockfishMove R r pos depth timeLimit = uciOf m := by
    intro hne
    simp only [getStockfishMove, findBestMove]
    by_cases hres : (findBestLoop R r depth (R.turn pos) (sortCapturesFirst (R.moves pos))
        pos "" (if R.turn pos = Color.w then ⊥ else ⊤)).1 = ""
    · rw [if_pos hres]
      cases hms : sortCapturesFirst (R.moves pos) with
      | nil => exact absurd hms (sortCapturesFirst_ne_nil hne)
      | cons m0 tl =>
          refine ⟨m0, mem_sortCapturesFirst.mp ?_, rfl⟩
          rw [hms]
          exact List.mem_cons_self m0 tl
    · rw [if_neg hres]
      rcases findBestLoop_fst_mem R r depth (R.turn pos) (sortCapturesFirst (R.moves pos))
          pos "" (if R.turn pos = Color.w then ⊥ else ⊤) with h | ⟨m1, hm1, h⟩
      · exact absurd h hres
      · exact ⟨m1, mem_sortCapturesFirst.mp hm1, h⟩
  refine ⟨⟨fun hempty => ?_, fun hnil => ?_⟩, key⟩
  · by_contra hne
    obtain ⟨m, hm, heq⟩ := key hne
    exact hmv m hm (heq ▸ hempty)
  · simp only [getStockfishMove, findBestMove, hnil, sortCapturesFirst, List.filter_nil,
      List.append_nil, findBestLoop, if_true]

/-- Witness for C6 at the concrete toy instantiation. -/
theorem C6_witness :
    (∀ m ∈ toyR.moves ([] : ToyPos), uciOf m ≠ "") ∧
    ((getStockfishMove toyR 0 ([] : ToyPos) 3 1000 = "" ↔ toyR.moves ([] : ToyPos) = []) ∧
     (toyR.moves ([] : ToyPos) ≠ [] →
       ∃ m ∈ toyR.moves ([] : ToyPos),
         getStockfishMove toyR 0 ([] : ToyPos) 3 1000 = uciOf m)) :=
  ⟨by decide, C6_empty_iff_no_moves toyR 0 [] 3 1000 (by decide)⟩

/-- C1: with the random perturbation fixed to 0, for every position
with at least one legal move, `findBestMove` at depth 1 returns the
coordinate encoding of the first move in capture-first enumeration
order whose resulting position maximizes (White) or minimizes (Black)
the static evaluation — `firstMax` and `firstMin` never prefer a later
move of equal score, so a later move achieving an equal best score is
never substituted. -/
theorem C1_depth_one_first_best (R : Rules P) (pos : P)
    (hundo : ∀ (p : P) (m : VMove), R.undo (R.mv p m) = p)
    (hne : R.moves pos ≠ [])
    (hmv : ∀ m ∈ R.moves pos, uciOf m ≠ "") :
    (∃ mw, firstMax (fun m => evaluateBoard R 0 (R.mv pos m))
        (sortCapturesFirst (R.moves pos)) = some mw ∧
      (findBestMove R 0 pos 1 Color.w).1 = uciOf mw) ∧
    (∃ mb, firstMin (fun m => evaluateBoard R 0 (R.mv pos m))
        (sortCapturesFirst (R.moves pos)) = some mb ∧
      (findBestMove R 0 pos 1 Color.b).1 = uciOf mb) := by
  obtain ⟨mw, hmw⟩ := firstMax_isSome (f := fun m => evaluateBoard R 0 (R.mv pos m))
    (sortCapturesFirst_ne_nil hne)
  obtain ⟨mbk, hmb⟩ := firstMin_isSome (f := fun m => evaluateBoard R 0 (R.mv pos m))
    (sortCapturesFirst_ne_nil hne)
  constructor
  · refine ⟨mw, hmw, ?_⟩
    have hmem : mw ∈ R.moves pos := mem_sortCapturesFirst.mp (firstMax_mem hmw)
    have hloop : (findBestLoop R 0 1 Color.w (sortCapturesFirst (R.moves pos)) pos "" ⊥).1 =
        uciOf mw := by
      rw [findBestLoop_one_w R 0 hundo pos, hmw]
      show (if (⊥ : EScore) < qs (evaluateBoard R 0 (R.mv pos mw)) then uciOf mw else "") =
        uciOf mw
      rw [if_pos (bot_lt_qs _)]
    simp only [findBestMove, eq_self_iff_true, if_true]
    rw [hloop, if_neg (hmv mw hmem)]
  · refine ⟨mbk, hmb, ?_⟩
    have hmem : mbk ∈ R.moves pos := mem_sortCapturesFirst.mp (firstMin_mem hmb)
    have hloop : (findBestLoop R 0 1 Color.b (sortCapturesFirst (R.moves pos)) pos "" ⊤).1 =
        uciOf mbk := by
      rw [findBestLoop_one_b R 0 hundo pos, hmb]
      show (if qs (evaluateBoard R 0 (R.mv pos mbk)) < (⊤ : EScore) then uciOf mbk else "") =
        uciOf mbk
      rw [if_pos (qs_lt_top _)]
    simp only [findBestMove, color_b_ne_w, if_false]
    rw [hloop, if_neg (hmv mbk hmem)]

/-- Witness for C1 at the concrete toy instantiation. -/
theorem C1_witness :
    (∀ (p : ToyPos) (m : VMove), toyR.undo (toyR.mv p m) = p) ∧
    toyR.moves ([] : ToyPos) ≠ [] ∧
    (∀ m ∈ toyR.moves ([] : ToyPos), uciOf m ≠ "") ∧
    ((∃ mw, firstMax (fun m => evaluateBoard toyR 0 (toyR.mv [] m))
        (sortCapturesFirst (toyR.moves ([] : ToyPos))) = some mw ∧
      (findBestMove toyR 0 ([] : ToyPos) 1 Color.w).1 = uciOf mw) ∧
    (∃ mb, firstMin (fun m => evaluateBoard toyR 0 (toyR.mv [] m))
        (sortCapturesFirst (toyR.moves ([] : ToyPos))) = some mb ∧
      (findBestMove toyR 0 ([] : ToyPos) 1 Color.b).1 = uciOf mb)) :=
  ⟨toyR_undo_mv, by decide, by decide,
   C1_depth_one_first_best toyR [] toyR_undo_mv (by decide) (by decide)⟩

/-- Toy position-string parser: one well-formed position string, all
others unparseable (a thrown parse exception, modelled by `none`). -/
def toyParse : String → Option ToyPos :=
  fun s => if s = "fen" then some [] else none

/-- C7: for every valid puzzle input, `solvePuzzle` searches at
effective depth `min(mateIn * 2, 3)` for the position's side to move
and returns true exactly when the best move's coordinate encoding is
one of the space-separated solution moves; in particular for
`mateIn = 3` the depth used is 3, never 6. -/
theorem C7_puzzle_depth_and_match (parse : String → Option P) (R : Rules P) (r : ℚ)
    (fen solution : String) (mateIn : Nat) (timeLimit : ℚ) (chess : P)
    (hp : parse fen = some chess) :
    solvePuzzle parse R r fen solution mateIn timeLimit =
      (solution.splitOn " ").contains
        ((findBestMove R r chess (min (mateIn * 2) 3) (R.turn chess)).1) ∧
    solvePuzzle parse R r fen solution 3 timeLimit =
      (solution.splitOn " ").contains
        ((findBestMove R r chess 3 (R.turn chess)).1) := by
  have h63 : min (3 * 2) 3 = 3 := by decide
  constructor
  · simp [solvePuzzle, solvePuzzleCore, hp]
  · simp [solvePuzzle, solvePuzzleCore, hp, h63]

/-- Witness for C7 at the concrete toy instantiation. -/
theorem C7_witness :
    toyParse "fen" = some ([] : ToyPos) ∧
    (solvePuzzle toyParse toyR 0 "fen" "a2a3 b2c3" 2 15000 =
      ("a2a3 b2c3".splitOn " ").contains
        ((findBestMove toyR 0 ([] : ToyPos) (min (2 * 2) 3) (toyR.turn [])).1) ∧
    solvePuzzle toyParse toyR 0 "fen" "a2a3 b2c3" 3 15000 =
      ("a2a3 b2c3".splitOn " ").contains
        ((findBestMove toyR 0 ([] : ToyPos) 3 (toyR.turn [])).1)) :=
  ⟨rfl, C7_puzzle_depth_and_match toyParse toyR 0 "fen" "a2a3 b2c3" 2 15000 [] rfl⟩

/-- C8: an exception inside the `try` block of `solvePuzzle` — in
particular an unparseable position, modelled by a `none` parse — is
absorbed and converted to the return value `false`; `solvePuzzle` is a
total function into `Bool`, so it never propagates an exception. -/
theorem C8_solvePuzzle_absorbs_failure (parse : String → Option P) (R : Rules P)
    (r : ℚ) (fen solution : String) (mateIn : Nat) (timeLimit : ℚ)
    (herr : parse fen = none) :
    solvePuzzle parse R r fen solution mateIn timeLimit = false := by
  simp [solvePuzzle, solvePuzzleCore, herr]

/-- Witness for C8 at the concrete toy instantiation. -/
theorem C8_witness :
    toyParse "not a position" = (none : Option ToyPos) ∧
    solvePuzzle toyParse toyR 0 "not a position" "a2a3" 1 15000 = false :=
  ⟨rfl, C8_solvePuzzle_absorbs_failure toyParse toyR 0 "not a position" "a2a3" 1 15000 rfl⟩

/-- C9: with the random source fixed, the `timeLimit` parameter never
influences the computation: `getStockfishMove` returns the same move
and `solvePuzzle` the same boolean for any two time limits — the search
always runs to the fixed depth. -/
theorem C9_timeLimit_never_influences (parse : String → Option P) (R : Rules P)
    (r : ℚ) (pos : P) (depth : Nat) (fen solution : String) (mateIn : Nat)
    (t1 t2 : ℚ) :
    getStockfishMove R r pos depth t1 = getStockfishMove R r pos depth t2 ∧
    solvePuzzle parse R r fen solution mateIn t1 =
      solvePuzzle parse R r fen solution mateIn t2 :=
  ⟨rfl, rfl⟩

/-- C10: with the random source fixed, the exported `evaluatePosition`
returns the same score for any two depth values: it performs one static
board evaluation and never invokes the recursive search, so its `depth`
parameter has no effect on the result. -/
theorem C10_evaluatePosition_depth_irrelevant (parse : String → Option P)
    (R : Rules P) (r : ℚ) (fen : String) (d1 d2 : Nat) :
    evaluatePosition parse R r fen d1 = evaluatePosition parse R r fen d2 ∧
    evaluatePosition parse R r fen d1 = (parse fen).map (evaluateBoard R r) :=
  ⟨rfl, rfl⟩

/-!
The capture bonus of `evaluateBoard`.  The source multiplies by the
mover-sign twice — once inside `captureValue` and once more when adding
the bonus — so the two signs cancel and the bonus is added with
positive sign regardless of which side captured.
-/

/-- Folding a function that ignores its second argument and returns its
accumulator is the identity. -/
theorem foldl_keep {α β : Type} (l : List β) : ∀ acc : α,
    List.foldl (fun a _ => a) acc l = acc := by
  induction l with
  | nil => intro acc; rfl
  | cons h t ih => intro acc; exact ih acc

/-- On an empty board the material-plus-positional sum is zero. -/
theorem materialPositional_none (R : Rules P) (pos : P)
    (hb : ∀ i j, R.board pos i j = none) : materialPositional R pos = 0 := by
  simp [materialPositional, squareScore, hb, foldl_keep]

/-- In the source, the last-move capture bonus always comes out as
`PIECE_VALUES[captured] * CAPTURE_BONUS` with positive sign, for both
capture colors: the sign factor is applied twice and cancels. -/
theorem captureBonusTerm_unsigned (R : Rules P) (pos : P) (lm : VMove)
    (ck : PieceSymbol) (hl : (R.history pos).getLast? = some lm)
    (hc : lm.captured = some ck) :
    captureBonusTerm R pos = PIECE_VALUES ck * CAPTURE_BONUS := by
  rw [captureBonusTerm]
  simp only [hl, hc]
  by_cases hw : lm.color = Color.w
  · simp only [if_pos hw]
    ring
  · simp only [if_neg hw]
    ring

/-- The move of the C3 failing input: Black has just captured a pawn. -/
def bCapt : VMove := ⟨"d5", "e4", none, some PieceSymbol.p, Color.b⟩

/-- Rules for the C3 failing input: empty board, no terminal flags. -/
def toyC3R : Rules ToyPos :=
  toyRules (fun _ => []) (fun _ => true) (fun _ => false) (fun _ => false)
    (fun _ => Color.w)

/-- The C3 failing input: the position whose history is the single
Black capture of a pawn. -/
def toyC3Pos : ToyPos := [bCapt]

/-- C3 evidence: at a non-terminal position whose last history move is
a Black capture of a pawn (material-positional sum 0, random source 0),
the source evaluation yields `-1/10 + 1/2 = 2/5` — the capture bonus is
added with positive sign — whereas the claimed Black-signed bonus
`materialValue * 0.5` subtracted would yield `-1/10 - 1/2 = -3/5`.  The
two disagree, so the code does not sign the bonus by the capturing
side. -/
theorem C3_capture_bonus_sign_flaw :
    evaluateBoard toyC3R 0 toyC3Pos = 2/5 ∧
    materialPositional toyC3R toyC3Pos + ((0 : ℚ) * (2/10) - 1/10) +
      PIECE_VALUES PieceSymbol.p * CAPTURE_BONUS * (-1) = -(3/5) ∧
    (2/5 : ℚ) ≠ -(3/5) := by
  have hb : ∀ i j, toyC3R.board toyC3Pos i j = none := fun i j => rfl
  have hmat : materialPositional toyC3R toyC3Pos = 0 :=
    materialPositional_none toyC3R toyC3Pos hb
  have hbonus : captureBonusTerm toyC3R toyC3Pos =
      PIECE_VALUES PieceSymbol.p * CAPTURE_BONUS :=
    captureBonusTerm_unsigned toyC3R toyC3Pos bCapt PieceSymbol.p rfl rfl
  refine ⟨?_, ?_, by norm_num⟩
  · rw [evaluateBoard, if_neg (by decide), if_neg (by decide), hmat, hbonus]
    norm_num [PIECE_VALUES, CAPTURE_BONUS]
  · rw [hmat]
    norm_num [PIECE_VALUES, CAPTURE_BONUS]

/-!
Evaluation order.  The capture-first sort is applied only at the root
(`findBestMove`); the recursive `minimax` nodes iterate the move list
exactly as the move generator returns it.
-/

/-- The capture-first sorted root enumeration does place every capture
before every non-capture. -/
theorem capturesFirst_sortCapturesFirst (ms : List VMove) :
    capturesFirst (sortCapturesFirst ms) := by
  rw [capturesFirst, sortCapturesFirst, List.pairwise_append]
  refine ⟨?_, ?_, ?_⟩
  · refine List.pairwise_of_forall_mem_list ?_
    intro a ha b hb hcap
    exact (List.mem_filter.mp ha).2
  · refine List.pairwise_of_forall_mem_list ?_
    intro a ha b hb hcap
    exact absurd hcap (by simpa using (List.mem_filter.mp hb).2)
  · intro a ha b hb hcap
    exact (List.mem_filter.mp ha).2

/-- The maximizing loop applies a prefix of the move list, in the move
generator's order. -/
theorem maxLoopApplied_take (R : Rules P) (child : P → EScore → EScore × P)
    (beta : EScore) :
    ∀ (ms : List VMove) (pos : P) (alpha : EScore),
      ∃ k, maxLoopApplied R child beta ms pos alpha = ms.take k := by
  intro ms
  induction ms with
  | nil => intro pos alpha; exact ⟨0, rfl⟩
  | cons m ms ih =>
      intro pos alpha
      simp only [maxLoopApplied]
      split
      · exact ⟨1, rfl⟩
      · obtain ⟨k, hk⟩ := ih _ _
        exact ⟨k + 1, by rw [hk, List.take_succ_cons]⟩

/-- The minimizing loop applies a prefix of the move list, in the move
generator's order. -/
theorem minLoopApplied_take (R : Rules P) (child : P → EScore → EScore × P)
    (alpha : EScore) :
    ∀ (ms : List VMove) (pos : P) (beta : EScore),
      ∃ k, minLoopApplied R child alpha ms pos beta = ms.take k := by
  intro ms
  induction ms with
  | nil => intro pos beta; exact ⟨0, rfl⟩
  | cons m ms ih =>
      intro pos beta
      simp only [minLoopApplied]
      split
      · exact ⟨1, rfl⟩
      · obtain ⟨k, hk⟩ := ih _ _
        exact ⟨k + 1, by rw [hk, List.take_succ_cons]⟩

/-- Every `minimax` node applies a prefix of the raw move-generator
list — no capture-first reordering happens below the root. -/
theorem minimaxApplied_take (R : Rules P) (r : ℚ) (d : Nat) (pos : P)
    (alpha beta : EScore) (b : Bool) :
    ∃ k, minimaxApplied R r d pos alpha beta b = (R.moves pos).take k := by
  cases d with
  | zero => exact ⟨0, rfl⟩
  | succ d' =>
      simp only [minimaxApplied]
      split
      · exact ⟨0, rfl⟩
      · split
        · exact maxLoopApplied_take R _ beta (R.moves pos) pos alpha
        · exact minLoopApplied_take R _ alpha (R.moves pos) pos beta

/-- C4 counterexample: a position offering a non-capture before a
capture in move-generator order; at a recursive `minimax` node (depth
1, maximizing, full window) the moves are applied in exactly that
order, so the capture is evaluated after the non-capture. -/
theorem C4_counterexample :
    (∃ m ∈ toyR.moves ([] : ToyPos), m.captured.isSome) ∧
    (∃ m ∈ toyR.moves ([] : ToyPos), m.captured.isSome = false) ∧
    ¬ capturesFirst (minimaxApplied toyR 0 1 ([] : ToyPos) ⊥ ⊤ true) := by
  refine ⟨⟨tmCapt, by decide, by decide⟩, ⟨tmPlain, by decide, by decide⟩, ?_⟩
  have happ : minimaxApplied toyR 0 1 ([] : ToyPos) ⊥ ⊤ true = [tmPlain, tmCapt] := by
    decide
  rw [happ]
  intro hcf
  rw [capturesFirst] at hcf
  have hpair := (List.pairwise_cons.mp hcf).1 tmCapt (List.mem_cons_self _ _)
  exact absurd (hpair (by decide)) (by decide)

/-- C4 amended: the root enumeration of `findBestMove` (the
capture-first sort of the legal moves) places all captures before any
non-capture, while every recursive `minimax` node applies moves in a
prefix of the raw move-generator order, with no capture-first
sorting. -/
theorem C4_amended_orders :
    (∀ ms : List VMove, capturesFirst (sortCapturesFirst ms)) ∧
    (∀ (R : Rules P) (r : ℚ) (d : Nat) (pos : P) (alpha beta : EScore) (b : Bool),
      ∃ k, minimaxApplied R r d pos alpha beta b = (R.moves pos).take k) :=
  ⟨capturesFirst_sortCapturesFirst,
   fun R r d pos alpha beta b => minimaxApplied_take R r d pos alpha beta b⟩

end HukumChess
